import Mathlib

/-!
Verification development for the EduTutor quiz pipeline
(`ai_engine.py`, `utils.py`, `app.py`).

The Python code is shallowly embedded: dictionaries of quiz items become an
inductive type, the grading loop becomes structural recursion over the item
list, and the `random.choice` draws of the generators become explicit choice
oracles (`Nat → Fin 4`) supplied as parameters.  Python string primitives
(`str.strip`, `str.split`, `re.findall("[A-Za-z0-9]+", ·)`) are embedded as
executable Lean functions on `String`.
-/

namespace EduTutor

/-- Characters matched by the grading tokenizer's regex class `[A-Za-z0-9]`. -/
def isAlnum (c : Char) : Bool :=
  (('A' ≤ c && c ≤ 'Z') || ('a' ≤ c && c ≤ 'z') || ('0' ≤ c && c ≤ '9'))

/-- Embedding of Python `str.strip()`: drop leading and trailing whitespace. -/
def pyStrip (s : String) : String :=
  String.mk (((s.data.dropWhile Char.isWhitespace).reverse.dropWhile
      Char.isWhitespace).reverse)

/-- Embedding of Python `str.lower()` (ASCII letters, as used by the code). -/
def pyLower (s : String) : String :=
  String.mk (s.data.map Char.toLower)

/-- Worker for run splitting: scans the character list, accumulating the
current run of kept characters (reversed) in `cur`; `keep` selects the
characters that belong to a run, everything else separates runs. -/
def splitRunsAux (keep : Char → Bool) : List Char → List Char → List String
  | [], cur => if cur = [] then [] else [String.mk cur.reverse]
  | c :: cs, cur =>
    if keep c then
      splitRunsAux keep cs (c :: cur)
    else if cur = [] then
      splitRunsAux keep cs []
    else
      String.mk cur.reverse :: splitRunsAux keep cs []

/-- The maximal runs of characters satisfying `keep` in `s`, in order. -/
def splitRuns (keep : Char → Bool) (s : String) : List String :=
  splitRunsAux keep s.data []

/-- Embedding of `re.findall(r"[A-Za-z0-9]+", s)`: the maximal runs of
alphanumeric characters of `s`, in order. -/
def tokenize (s : String) : List String :=
  splitRuns isAlnum s

/-- Embedding of Python `str.split()` with no argument: split on whitespace
runs, discarding empty pieces. -/
def pySplitWS (s : String) : List String :=
  splitRuns (fun c => !c.isWhitespace) s

/-- A quiz item (`ai_engine.py` builds these as dicts with a `"type"` key;
the two shapes become the two constructors). -/
inductive QuizItem where
  | mcq (question : String) (options : List String) (answer : String)
      (explanation : String) (topic_tag : String)
  | short (question : String) (ideal_answer : String) (keywords : List String)
      (topic_tag : String)
  deriving Repr, DecidableEq

/-- The `"type"` field of an item. -/
def QuizItem.itemType : QuizItem → String
  | .mcq _ _ _ _ _ => "mcq"
  | .short _ _ _ _ => "short"

/-- Result dict of `grade_quiz_submission`. -/
structure GradeResult where
  score : Nat
  total : Nat
  feedback_list : List String
  weak_areas : List String
  deriving Repr, DecidableEq

/-- The submitted answers: embedding of the Python dict `answers`; lookup with
default `""` mirrors `answers.get(key, "")`. -/
def AnswerMap := List (String × String)

/-- Embedding of `answers.get(key, "")` (values are the strings the UI puts
in the dict). -/
def dictGet (answers : AnswerMap) (key : String) : String :=
  match List.find? (fun p => p.1 = key) answers with
  | some p => p.2
  | none => ""

/-- Grading of one item at index `idx`, returning
(score increment, feedback line, weak-area extension); body translated from
the loop body of `grade_quiz_submission` (`ai_engine.py` lines 153-176). -/
def gradeItem (answers : AnswerMap) (idx : Nat) : QuizItem →
    Nat × String × List String
  | .mcq _ _ answer explanation topic_tag =>
    let user_ans := pyStrip (dictGet answers ("q_" ++ toString idx))
    let correct := pyStrip answer
    if user_ans = correct then
      (1, "Q" ++ toString (idx + 1) ++ ": Correct.", [])
    else
      (0, "Q" ++ toString (idx + 1) ++ ": Incorrect. " ++ explanation,
        [topic_tag])
  | .short _ _ keywords topic_tag =>
    let user_ans := pyStrip (dictGet answers ("q_" ++ toString idx))
    let user_tokens := tokenize (pyLower user_ans)
    let keyword_hits :=
      (keywords.filter (fun kw => user_tokens.contains (pyLower kw))).length
    if keyword_hits ≥ max 1 (keywords.length / 2) then
      (1, "Q" ++ toString (idx + 1) ++ ": Good. Covered key points.", [])
    else
      let miss := keywords.filter (fun kw => !user_tokens.contains (pyLower kw))
      (0, "Q" ++ toString (idx + 1) ++ ": Needs improvement. Mention: " ++
          (if miss = [] then "more specifics" else String.intercalate ", " miss)
          ++ ".",
        if miss = [] then [topic_tag] else miss)

/-- The grading loop of `grade_quiz_submission`: accumulates
(score, feedback list, raw weak-area list) over the items, the index starting
at `idx`. -/
def gradeItems (answers : AnswerMap) (idx : Nat) :
    List QuizItem → Nat × List String × List String
  | [] => (0, [], [])
  | item :: rest =>
    let r := gradeItem answers idx item
    let racc := gradeItems answers (idx + 1) rest
    (r.1 + racc.1, r.2.1 :: racc.2.1, r.2.2 ++ racc.2.2)

/-- Embedding of `grade_quiz_submission(items, answers)`
(`ai_engine.py` lines 147-183). -/
def grade_quiz_submission (items : List QuizItem) (answers : AnswerMap) :
    GradeResult :=
  let acc := gradeItems answers 0 items
  { score := acc.1
    total := items.length
    feedback_list := acc.2.1
    weak_areas := acc.2.2.filter (fun w => w ≠ "") }

/-- The option-letter pool `["A", "B", "C", "D"]` of `_generate_mcq`; a draw of
`random.choice` is embedded as a `Fin 4` index into it. -/
def letterName (i : Fin 4) : String :=
  ["A", "B", "C", "D"].getD i.val ""

/-- The fixed option templates of `_generate_mcq`. -/
def mcqOptions (topic subject : String) : List String :=
  ["Option A related to " ++ topic,
   "Option B about " ++ subject,
   "Option C factual detail",
   "Option D common misconception"]

/-- Embedding of `_generate_mcq(topic, subject, difficulty, n)`
(`ai_engine.py` lines 98-117); `choice i` is the letter drawn by
`random.choice(["A","B","C","D"])` for the `i`-th item. -/
def generateMcq (topic subject difficulty : String) (n : Nat)
    (choice : Nat → Fin 4) : List QuizItem :=
  (List.range n).map fun i =>
    QuizItem.mcq
      (subject ++ ": On '" ++ topic ++ "', which option is correct? (Level: "
        ++ difficulty ++ ")")
      (mcqOptions topic subject)
      ((mcqOptions topic subject).getD (choice i).val "")
      ("The correct answer is " ++ letterName (choice i) ++
        " due to core concept alignment.")
      topic

/-- The fixed question starters of `_generate_short`. -/
def shortStarters : List String :=
  ["Explain the concept of",
   "Give a short definition of",
   "List two key points about",
   "Describe a real-world application of"]

/-- Embedding of `_generate_short(topic, subject, difficulty, n)`
(`ai_engine.py` lines 120-138); `choice i` is the starter drawn by
`random.choice(starters)` for the `i`-th item. -/
def generateShort (topic subject difficulty : String) (n : Nat)
    (choice : Nat → Fin 4) : List QuizItem :=
  (List.range n).map fun i =>
    QuizItem.short
      (shortStarters.getD (choice i).val "" ++ " " ++ topic ++ " in " ++
        subject ++ ". (Level: " ++ difficulty ++ ")")
      ("An ideal answer should mention the core definition, one example, and a "
        ++ pyLower difficulty ++ " nuance.")
      ((((pySplitWS topic).filter (fun kw => kw.length > 3)).map pyStrip).take 4)
      topic

/-- Embedding of `generate_quiz_items(topic, subject, difficulty, num_mcq,
num_short)` (`ai_engine.py` lines 141-144); the two oracles carry the random
draws of the two sub-generators. -/
def generate_quiz_items (topic subject difficulty : String)
    (num_mcq num_short : Nat) (choiceM choiceS : Nat → Fin 4) : List QuizItem :=
  generateMcq topic subject difficulty num_mcq choiceM ++
    generateShort topic subject difficulty num_short choiceS

/-- Worker for `splitComma`: split a character list at every comma, keeping
empty pieces (Python `s.split(",")`). -/
def splitCommaAux : List Char → List Char → List String
  | [], cur => [String.mk cur.reverse]
  | c :: cs, cur =>
    if c = ',' then
      String.mk cur.reverse :: splitCommaAux cs []
    else
      splitCommaAux cs (c :: cur)

/-- Embedding of Python `s.split(",")`. -/
def splitComma (s : String) : List String :=
  splitCommaAux s.data []

/-- Splitting of one stored weak-areas field, from `export_pdf_report`
(`utils.py` line 187): `[a.strip() for a in areas.split(",") if a.strip()]`. -/
def splitWeakField (s : String) : List String :=
  ((splitComma s).map pyStrip).filter (fun t => t ≠ "")

/-- One step of the counting dict update `counts[t] = counts.get(t, 0) + 1`
on an insertion-ordered association list. -/
def bumpCount : List (String × Nat) → String → List (String × Nat)
  | [], t => [(t, 1)]
  | (k, c) :: rest, t =>
    if k = t then (k, c + 1) :: rest else (k, c) :: bumpCount rest t

/-- The weak-area counting dict built by `export_pdf_report`
(`utils.py` lines 185-188) over the selected rows' weak-areas fields. -/
def weakCounts (rows : List String) : List (String × Nat) :=
  rows.foldl (fun acc s => (splitWeakField s).foldl bumpCount acc) []

/-- Stable insertion of a pair into a count-descending list: `p` goes in
front of the first entry whose count is ≤ its own, so among equal counts the
earlier-listed entry stays first. -/
def insertDesc (p : String × Nat) : List (String × Nat) → List (String × Nat)
  | [] => [p]
  | q :: rest =>
    if q.2 ≤ p.2 then p :: q :: rest else q :: insertDesc p rest

/-- Embedding of Python `sorted(·, key=lambda x: -x[1])`: the stable sort by
descending count (Python's `sorted` is specified to be stable). -/
def sortByCountDesc : List (String × Nat) → List (String × Nat)
  | [] => []
  | p :: rest => insertDesc p (sortByCountDesc rest)

/-- Embedding of `sorted(counts.items(), key=lambda x: -x[1])[:6]`
(`utils.py` line 189): stable descending sort by count, first 6 entries. -/
def topWeakAreas (rows : List String) : List (String × Nat) :=
  (sortByCountDesc (weakCounts rows)).take 6

/-- The weak-area tokens of the selected rows, flattened across rows in row
order; the aggregation's counts are occurrence counts in this list, and a
string's first encounter is its first occurrence in this list. -/
def flatWeak (rows : List String) : List String :=
  (rows.map splitWeakField).flatten

/-- The keys of the counting dict, in insertion order. -/
def keysOf (acc : List (String × Nat)) : List String :=
  acc.map Prod.fst

/-- Lookup in the counting dict with default 0 (`counts.get(t, 0)`). -/
def assocCount (acc : List (String × Nat)) (t : String) : Nat :=
  match acc.find? (fun p => decide (p.1 = t)) with
  | some p => p.2
  | none => 0

/-- The counting dict built over a flat token list (the single-row core of
`weakCounts`). -/
def countsOf (l : List String) : List (String × Nat) :=
  l.foldl bumpCount []

/-- Aggregate average percentage over result rows given as (score, total)
pairs: `(sum(score) / sum(total)) * 100` with 0 for an empty denominator
(`utils.py` line 161, `app.py` line 195). -/
def averagePct (rows : List (Nat × Nat)) : ℚ :=
  if (rows.map Prod.snd).sum = 0 then 0
  else ((((rows.map Prod.fst).sum : Nat) : ℚ)
    / (((rows.map Prod.snd).sum : Nat) : ℚ)) * 100

/-! ### Structural lemmas about the grading loop -/

/-- Each loop iteration adds at most one point. -/
theorem gradeItem_fst_le_one (answers : AnswerMap) (idx : Nat) (item : QuizItem) :
    (gradeItem answers idx item).1 ≤ 1 := by
  cases item <;> simp only [gradeItem] <;> split <;> simp

/-- Closed form of the grading loop: per-item score increments, feedback
lines, and weak-area extensions, indexed from `idx`. -/
theorem gradeItems_eq (answers : AnswerMap) (items : List QuizItem) : ∀ idx,
    gradeItems answers idx items
      = (((items.enumFrom idx).map (fun p => (gradeItem answers p.1 p.2).1)).sum,
         (items.enumFrom idx).map (fun p => (gradeItem answers p.1 p.2).2.1),
         ((items.enumFrom idx).map
            (fun p => (gradeItem answers p.1 p.2).2.2)).flatten) := by
  induction items with
  | nil => intro idx; rfl
  | cons item rest ih =>
    intro idx
    simp [gradeItems, List.enumFrom_cons, ih (idx + 1)]

/-- The score of a graded submission is the sum of the per-item score
increments. -/
theorem grade_score_eq (items : List QuizItem) (answers : AnswerMap) :
    (grade_quiz_submission items answers).score
      = ((items.enum).map (fun p => (gradeItem answers p.1 p.2).1)).sum := by
  simp [grade_quiz_submission, gradeItems_eq answers items 0, List.enum]

/-- The feedback list of a graded submission is the per-item feedback lines,
in item order. -/
theorem grade_feedback_eq (items : List QuizItem) (answers : AnswerMap) :
    (grade_quiz_submission items answers).feedback_list
      = (items.enum).map (fun p => (gradeItem answers p.1 p.2).2.1) := by
  simp [grade_quiz_submission, gradeItems_eq answers items 0, List.enum]

/-- The weak areas of a graded submission are the flattened per-item
extensions with empty strings filtered out. -/
theorem grade_weak_eq (items : List QuizItem) (answers : AnswerMap) :
    (grade_quiz_submission items answers).weak_areas
      = (((items.enum).map
            (fun p => (gradeItem answers p.1 p.2).2.2)).flatten).filter
          (fun w => w ≠ "") := by
  simp [grade_quiz_submission, gradeItems_eq answers items 0, List.enum]

/-- The `idx`-th feedback line comes from grading the `idx`-th item. -/
theorem grade_feedback_getD (items : List QuizItem) (answers : AnswerMap)
    (i : Nat) (h : i < items.length) :
    (grade_quiz_submission items answers).feedback_list.getD i ""
      = (gradeItem answers i (items.get ⟨i, h⟩)).2.1 := by
  have hlen : i < ((items.enum).map
      (fun p => (gradeItem answers p.1 p.2).2.1)).length := by
    simpa [List.enum_length] using h
  rw [grade_feedback_eq, List.getD_eq_getElem _ _ hlen, List.getElem_map]
  rw [List.getElem_enum]
  simp [List.get_eq_getElem]

/-!  Claim theorems. -/

/-- C3: for every items list and answers map, `grade_quiz_submission` returns
`total = len(items)`, a feedback list with exactly one entry per item in item
index order (the `i`-th entry being the `i`-th item's feedback line), weak
areas free of empty strings, and a score between 0 and `total`. -/
theorem C3_grade_result_shape (items : List QuizItem) (answers : AnswerMap) :
    (grade_quiz_submission items answers).total = items.length
    ∧ (grade_quiz_submission items answers).feedback_list.length = items.length
    ∧ (∀ i (h : i < items.length),
        (grade_quiz_submission items answers).feedback_list.getD i ""
          = (gradeItem answers i (items.get ⟨i, h⟩)).2.1)
    ∧ (∀ w ∈ (grade_quiz_submission items answers).weak_areas, w ≠ "")
    ∧ (grade_quiz_submission items answers).score
        ≤ (grade_quiz_submission items answers).total := by
  refine ⟨rfl, ?_, ?_, ?_, ?_⟩
  · rw [grade_feedback_eq]
    simp [List.enum_length]
  · intro i h
    exact grade_feedback_getD items answers i h
  · intro w hw
    rw [grade_weak_eq] at hw
    exact of_decide_eq_true (List.mem_filter.mp hw).2
  · have htot : (grade_quiz_submission items answers).total = items.length := rfl
    rw [htot, grade_score_eq]
    have hle := List.sum_le_card_nsmul
      ((items.enum).map (fun p => (gradeItem answers p.1 p.2).1)) 1 ?_
    · simpa [List.enum_length] using hle
    · intro x hx
      rcases List.mem_map.mp hx with ⟨p, _, hp⟩
      simpa [← hp] using gradeItem_fst_le_one answers p.1 p.2

/-- C3 witness: the shape facts instantiated on a concrete one-item run. -/
theorem C3_grade_result_shape_witness :
    (grade_quiz_submission [QuizItem.short "q" "ia" ["derivative"] "calculus"]
        [("q_0", "a derivative")]).feedback_list.getD 0 ""
      = (gradeItem [("q_0", "a derivative")] 0
          (QuizItem.short "q" "ia" ["derivative"] "calculus")).2.1 :=
  (C3_grade_result_shape [QuizItem.short "q" "ia" ["derivative"] "calculus"]
      [("q_0", "a derivative")]).2.2.1 0 (by decide)

/-- Bridging fact: `List.contains` agrees with decidable membership on
strings. -/
theorem contains_eq_decide_mem (l : List String) (x : String) :
    l.contains x = decide (x ∈ l) := by
  by_cases h : x ∈ l <;> simp [h]

/-- The keyword-hit count computed by the grader (length of the filtered
keyword list) is the number of keywords whose lowercase form is among the
tokens. -/
theorem keyword_hits_eq (kws toks : List String) :
    (kws.filter (fun kw => toks.contains (pyLower kw))).length
      = kws.countP (fun kw => decide (pyLower kw ∈ toks)) := by
  rw [List.countP_eq_length_filter]
  congr 1
  apply List.filter_congr
  intro kw _
  exact contains_eq_decide_mem toks (pyLower kw)

/-- C1: for every short item and answers map, the grader tokenizes the
stripped lowercased submitted answer into alphanumeric tokens, counts the
keywords whose lowercase form appears as a token, awards the point exactly
when that count reaches `max 1 (len(keywords) / 2)`, and on failure extends
the weak areas with the missed keywords, or with the topic tag when the item
has no keywords at all. -/
theorem C1_short_answer_scoring (items : List QuizItem) (answers : AnswerMap)
    (i : Nat) (q ia tag : String) (kws : List String) (h : i < items.length)
    (hitem : items.get ⟨i, h⟩ = QuizItem.short q ia kws tag) :
    ((grade_quiz_submission items answers).score
        = ((items.enum).map (fun p => (gradeItem answers p.1 p.2).1)).sum)
    ∧ ((gradeItem answers i (items.get ⟨i, h⟩)).1
        = if max 1 (kws.length / 2)
              ≤ kws.countP (fun kw => decide (pyLower kw ∈
                  tokenize (pyLower (pyStrip
                    (dictGet answers ("q_" ++ toString i))))))
          then 1 else 0)
    ∧ (kws.countP (fun kw => decide (pyLower kw ∈
          tokenize (pyLower (pyStrip (dictGet answers ("q_" ++ toString i))))))
          < max 1 (kws.length / 2) →
        (gradeItem answers i (items.get ⟨i, h⟩)).2.2
          = if kws = [] then [tag]
            else kws.filter (fun kw => !decide (pyLower kw ∈
              tokenize (pyLower (pyStrip
                (dictGet answers ("q_" ++ toString i)))))))
    ∧ ((grade_quiz_submission items answers).weak_areas
        = (((items.enum).map
              (fun p => (gradeItem answers p.1 p.2).2.2)).flatten).filter
            (fun w => w ≠ "")) := by
  rw [hitem]
  set toks := tokenize (pyLower (pyStrip (dictGet answers ("q_" ++ toString i))))
    with htoks
  have hhits := keyword_hits_eq kws toks
  refine ⟨grade_score_eq items answers, ?_, ?_, grade_weak_eq items answers⟩
  · simp only [gradeItem, ← htoks, hhits, ge_iff_le]
    split <;> rfl
  · intro hfail
    simp only [gradeItem, ← htoks, hhits, ge_iff_le]
    rw [if_neg (by omega)]
    have hmiss : (kws.filter (fun kw => !toks.contains (pyLower kw)))
        = kws.filter (fun kw => !decide (pyLower kw ∈ toks)) := by
      apply List.filter_congr
      intro kw _
      rw [contains_eq_decide_mem]
    rw [hmiss]
    by_cases hk : kws = []
    · subst hk
      simp
    · have hne : kws.filter (fun kw => !decide (pyLower kw ∈ toks)) ≠ [] := by
        intro hnil
        have hall : ∀ kw ∈ kws, pyLower kw ∈ toks := by
          intro kw hkw
          have := List.filter_eq_nil_iff.mp hnil kw hkw
          simpa using this
        have hcnt : kws.countP (fun kw => decide (pyLower kw ∈ toks))
            = kws.length := by
          rw [List.countP_eq_length]
          intro a ha
          simpa using hall a ha
        have hlen1 : 1 ≤ kws.length := by
          cases kws with
          | nil => exact absurd rfl hk
          | cons a l => simp
        rw [hcnt] at hfail
        have hmax : max 1 (kws.length / 2) ≤ kws.length := by
          apply max_le hlen1
          omega
        exact absurd hfail (not_lt.mpr hmax)
      simp [hk, hne]

/-- C1 witness: a short item with keywords `["derivative", "integral"]` and
an answer containing only "derivative" has one hit, meets the threshold
`max(1, 1) = 1`, and earns the point. -/
theorem C1_short_answer_scoring_witness :
    (gradeItem [("q_0", "the derivative rules")] 0
        (QuizItem.short "q" "ia" ["derivative", "integral"] "calculus")).1
      = 1 := by
  have h := (C1_short_answer_scoring
      [QuizItem.short "q" "ia" ["derivative", "integral"] "calculus"]
      [("q_0", "the derivative rules")] 0 "q" "ia" "calculus"
      ["derivative", "integral"] (by decide) rfl).2.1
  simpa using h

/-- C2: for every mcq item and answers map, the grader compares the stripped
submitted answer with the stripped stored answer: on a match the point is
awarded and the feedback line is `"Q<idx+1>: Correct."`; on a mismatch no
point is awarded, the feedback line carries the item's explanation, and the
topic tag is appended to the weak areas (the result filtering out empty
strings). -/
theorem C2_mcq_scoring (items : List QuizItem) (answers : AnswerMap)
    (i : Nat) (q ans expl tag : String) (opts : List String)
    (h : i < items.length)
    (hitem : items.get ⟨i, h⟩ = QuizItem.mcq q opts ans expl tag) :
    ((grade_quiz_submission items answers).score
        = ((items.enum).map (fun p => (gradeItem answers p.1 p.2).1)).sum)
    ∧ (pyStrip (dictGet answers ("q_" ++ toString i)) = pyStrip ans →
        (gradeItem answers i (items.get ⟨i, h⟩))
          = (1, "Q" ++ toString (i + 1) ++ ": Correct.", []))
    ∧ (pyStrip (dictGet answers ("q_" ++ toString i)) ≠ pyStrip ans →
        (gradeItem answers i (items.get ⟨i, h⟩))
          = (0, "Q" ++ toString (i + 1) ++ ": Incorrect. " ++ expl, [tag]))
    ∧ ((grade_quiz_submission items answers).weak_areas
        = (((items.enum).map
              (fun p => (gradeItem answers p.1 p.2).2.2)).flatten).filter
            (fun w => w ≠ "")) := by
  rw [hitem]
  refine ⟨grade_score_eq items answers, ?_, ?_, grade_weak_eq items answers⟩
  · intro hmatch
    simp [gradeItem, hmatch]
  · intro hmis
    simp [gradeItem, hmis]

/-- C2 witness: submitting the stored answer option of a concrete mcq item
yields the point and the feedback line `"Q1: Correct."`. -/
theorem C2_mcq_scoring_witness :
    (gradeItem [("q_0", "o2")] 0
        (QuizItem.mcq "q" ["o1", "o2", "o3", "o4"] "o2" "expl" "tag"))
      = (1, "Q1: Correct.", []) := by
  have h := (C2_mcq_scoring
      [QuizItem.mcq "q" ["o1", "o2", "o3", "o4"] "o2" "expl" "tag"]
      [("q_0", "o2")] 0 "q" "o2" "expl" "tag" ["o1", "o2", "o3", "o4"]
      (by decide) rfl).2.1 (by decide)
  simpa using h

/-- C10 (amended): for every short item, the feedback line is
`"Q<idx+1>: Good. Covered key points."` when the keyword-hit threshold is
met, and otherwise `"Q<idx+1>: Needs improvement. Mention: <missed keywords
comma-joined, or 'more specifics' if none>."`. -/
theorem C10_short_feedback_strings (items : List QuizItem) (answers : AnswerMap)
    (i : Nat) (q ia tag : String) (kws : List String) (h : i < items.length)
    (hitem : items.get ⟨i, h⟩ = QuizItem.short q ia kws tag) :
    (grade_quiz_submission items answers).feedback_list.getD i ""
      = (if max 1 (kws.length / 2)
            ≤ kws.countP (fun kw => decide (pyLower kw ∈
                tokenize (pyLower (pyStrip
                  (dictGet answers ("q_" ++ toString i))))))
        then "Q" ++ toString (i + 1) ++ ": Good. Covered key points."
        else
          "Q" ++ toString (i + 1) ++ ": Needs improvement. Mention: " ++
            (if kws.filter (fun kw => !decide (pyLower kw ∈
                  tokenize (pyLower (pyStrip
                    (dictGet answers ("q_" ++ toString i)))))) = []
            then "more specifics"
            else String.intercalate ", "
              (kws.filter (fun kw => !decide (pyLower kw ∈
                tokenize (pyLower (pyStrip
                  (dictGet answers ("q_" ++ toString i)))))))) ++ ".") := by
  rw [grade_feedback_getD items answers i h, hitem]
  set toks := tokenize (pyLower (pyStrip (dictGet answers ("q_" ++ toString i))))
    with htoks
  have hhits := keyword_hits_eq kws toks
  have hmiss : (kws.filter (fun kw => !toks.contains (pyLower kw)))
      = kws.filter (fun kw => !decide (pyLower kw ∈ toks)) := by
    apply List.filter_congr
    intro kw _
    rw [contains_eq_decide_mem]
  simp only [gradeItem, ← htoks, hhits, hmiss, ge_iff_le]
  split <;> rfl

/-- C10 witness: the concrete feedback strings of a passing and the shape of
the theorem at a concrete failing short item. -/
theorem C10_short_feedback_strings_witness :
    (grade_quiz_submission
        [QuizItem.short "q" "ia" ["derivative", "integral"] "calculus"]
        [("q_0", "the derivative rules")]).feedback_list.getD 0 ""
      = "Q1: Good. Covered key points." := by
  have h := C10_short_feedback_strings
      [QuizItem.short "q" "ia" ["derivative", "integral"] "calculus"]
      [("q_0", "the derivative rules")] 0 "q" "ia" "calculus"
      ["derivative", "integral"] (by decide) rfl
  simpa using h

/-- C10 counterexample: a passing short item's feedback line is
`"Q1: Good. Covered key points."`, not the string `"Good, covered key
points"` stated by the claim. -/
theorem C10_counterexample_feedback :
    (grade_quiz_submission
        [QuizItem.short "q" "ia" ["derivative", "integral"] "calculus"]
        [("q_0", "the derivative rules")]).score = 1
    ∧ (grade_quiz_submission
        [QuizItem.short "q" "ia" ["derivative", "integral"] "calculus"]
        [("q_0", "the derivative rules")]).feedback_list
        = ["Q1: Good. Covered key points."]
    ∧ (grade_quiz_submission
        [QuizItem.short "q" "ia" ["derivative", "integral"] "calculus"]
        [("q_0", "the derivative rules")]).feedback_list
        ≠ ["Good, covered key points"] := by
  refine ⟨by decide, by decide, by decide⟩

/-- C9: grading is deterministic: two runs on equal inputs return (all four
fields of) equal results; the embedding of `grade_quiz_submission` takes no
randomness or state besides its two arguments. -/
theorem C9_grading_deterministic (items₁ items₂ : List QuizItem)
    (answers₁ answers₂ : AnswerMap)
    (hitems : items₁ = items₂) (hans : answers₁ = answers₂) :
    (grade_quiz_submission items₁ answers₁).score
        = (grade_quiz_submission items₂ answers₂).score
    ∧ (grade_quiz_submission items₁ answers₁).total
        = (grade_quiz_submission items₂ answers₂).total
    ∧ (grade_quiz_submission items₁ answers₁).feedback_list
        = (grade_quiz_submission items₂ answers₂).feedback_list
    ∧ (grade_quiz_submission items₁ answers₁).weak_areas
        = (grade_quiz_submission items₂ answers₂).weak_areas := by
  subst hitems; subst hans
  exact ⟨rfl, rfl, rfl, rfl⟩

/-! ### Stripping lemmas used for the no-answer boundary claim -/

/-- `pyStrip` returns the empty string exactly when every character of the
input is whitespace. -/
theorem pyStrip_eq_empty_iff (s : String) :
    pyStrip s = "" ↔ ∀ c ∈ s.data, c.isWhitespace = true := by
  unfold pyStrip
  rw [String.ext_iff]
  show (((s.data.dropWhile Char.isWhitespace).reverse.dropWhile
      Char.isWhitespace).reverse = ([] : List Char)) ↔ _
  rw [List.reverse_eq_nil_iff, List.dropWhile_eq_nil_iff]
  constructor
  · intro hall c hc
    rcases List.mem_append.mp
        (by rw [List.takeWhile_append_dropWhile Char.isWhitespace s.data]
            exact hc) with htk | hdr
    · exact List.mem_takeWhile_imp htk
    · exact hall c (List.mem_reverse.mpr hdr)
  · intro hall c hc
    exact hall c ((List.dropWhile_sublist Char.isWhitespace).mem
      (List.mem_reverse.mp hc))

/-- A string containing a non-whitespace character does not strip to the
empty string. -/
theorem pyStrip_ne_empty {s : String} {c : Char} (hc : c ∈ s.data)
    (hw : c.isWhitespace = false) : pyStrip s ≠ "" := by
  intro h
  have := (pyStrip_eq_empty_iff s).mp h c hc
  rw [hw] at this
  exact Bool.false_ne_true this

/-- With no submitted answers, a generated mcq item scores 0: the empty
submitted answer never equals the stripped stored option text, which starts
with the non-whitespace character `O`. -/
theorem gradeItem_mcq_empty (idx : Nat) (topic subject : String) (k : Fin 4)
    (q expl tag : String) :
    (gradeItem [] idx
        (QuizItem.mcq q (mcqOptions topic subject)
          ((mcqOptions topic subject).getD k.val "") expl tag)).1 = 0 := by
  have hne : pyStrip ((mcqOptions topic subject).getD k.val "") ≠ "" := by
    fin_cases k
    · exact pyStrip_ne_empty (s := "Option A related to " ++ topic)
        (c := 'O')
        (by rw [String.data_append]; exact List.mem_append_left _ (by decide))
        (by decide)
    · exact pyStrip_ne_empty (s := "Option B about " ++ subject) (c := 'O')
        (by rw [String.data_append]; exact List.mem_append_left _ (by decide))
        (by decide)
    · exact pyStrip_ne_empty (s := "Option C factual detail") (c := 'O')
        (by decide) (by decide)
    · exact pyStrip_ne_empty (s := "Option D common misconception") (c := 'O')
        (by decide) (by decide)
  simp only [gradeItem]
  rw [if_neg]
  intro heq
  exact hne (heq ▸ rfl)

/-- With no submitted answers, a short item scores 0: the empty answer has no
tokens, so zero keyword hits fall below the threshold `max 1 ·`, whatever the
keyword list (including the empty one). -/
theorem gradeItem_short_empty (idx : Nat) (q ia tag : String)
    (kws : List String) :
    (gradeItem [] idx (QuizItem.short q ia kws tag)).1 = 0 := by
  simp only [gradeItem]
  rw [if_neg]
  show ¬ max 1 (kws.length / 2) ≤ _
  have htok : tokenize (pyLower (pyStrip (dictGet []
      ("q_" ++ toString idx)))) = [] := rfl
  rw [htok]
  simp

/-- Any item built by the quiz generator scores 0 against the empty answers
map, at any index. -/
theorem generated_item_scores_zero (topic subject difficulty : String)
    (nm ns : Nat) (chM chS : Nat → Fin 4) (i : Nat) (item : QuizItem)
    (hitem : item ∈ generate_quiz_items topic subject difficulty nm ns chM chS) :
    (gradeItem [] i item).1 = 0 := by
  rcases List.mem_append.mp hitem with hm | hs
  · rcases List.mem_map.mp hm with ⟨j, _, hj⟩
    subst hj
    exact gradeItem_mcq_empty i topic subject (chM j) _ _ _
  · rcases List.mem_map.mp hs with ⟨j, _, hj⟩
    subst hj
    exact gradeItem_short_empty i _ _ _ _

/-- C6: grading any generated quiz against an answers map with no keys yields
score 0: every mcq item mismatches the empty string and every short item,
keywords or not, has zero keyword hits below the threshold `max 1 ·`. -/
theorem C6_empty_answers_score_zero (topic subject difficulty : String)
    (nm ns : Nat) (chM chS : Nat → Fin 4) :
    (grade_quiz_submission
        (generate_quiz_items topic subject difficulty nm ns chM chS) []).score
      = 0 := by
  rw [grade_score_eq]
  apply List.sum_eq_zero
  intro x hx
  rcases List.mem_map.mp hx with ⟨⟨i, item⟩, hp, hval⟩
  have hitem : item ∈ generate_quiz_items topic subject difficulty nm ns chM chS := by
    have h := List.mem_enum hp
    rw [h.2]
    exact List.getElem_mem h.1
  rw [← hval]
  show (gradeItem [] i item).1 = 0
  exact generated_item_scores_zero topic subject difficulty nm ns chM chS
    i item hitem

/-- C4: `generate_quiz_items` returns exactly `num_mcq + num_short` items,
the first `num_mcq` of type mcq and the remaining `num_short` of type short,
in that order. -/
theorem C4_generate_counts_and_order (topic subject difficulty : String)
    (nm ns : Nat) (chM chS : Nat → Fin 4) :
    (generate_quiz_items topic subject difficulty nm ns chM chS).length
      = nm + ns
    ∧ ∀ i (h : i < (generate_quiz_items topic subject difficulty
          nm ns chM chS).length),
        ((generate_quiz_items topic subject difficulty nm ns chM chS).get
            ⟨i, h⟩).itemType = if i < nm then "mcq" else "short" := by
  have hlm : (generateMcq topic subject difficulty nm chM).length = nm := by
    simp [generateMcq]
  have hls : (generateShort topic subject difficulty ns chS).length = ns := by
    simp [generateShort]
  have hlen : (generate_quiz_items topic subject difficulty nm ns chM chS).length
      = nm + ns := by
    simp [generate_quiz_items, hlm, hls]
  have hgen : generate_quiz_items topic subject difficulty nm ns chM chS
      = generateMcq topic subject difficulty nm chM
        ++ generateShort topic subject difficulty ns chS := rfl
  refine ⟨hlen, ?_⟩
  intro i h
  rw [List.get_eq_getElem]
  have hcast : i < (generateMcq topic subject difficulty nm chM
      ++ generateShort topic subject difficulty ns chS).length := by
    rw [← hgen]; exact h
  have hEl : (generate_quiz_items topic subject difficulty nm ns chM chS)[i]
      = (generateMcq topic subject difficulty nm chM
          ++ generateShort topic subject difficulty ns chS)[i] :=
    List.getElem_of_eq hgen h
  by_cases hi : i < nm
  · rw [if_pos hi]
    have hi' : i < (generateMcq topic subject difficulty nm chM).length := by
      rw [hlm]; exact hi
    rw [hEl, List.getElem_append_left hi']
    have hmap : generateMcq topic subject difficulty nm chM
        = (List.range nm).map (fun j =>
            QuizItem.mcq
              (subject ++ ": On '" ++ topic ++
                "', which option is correct? (Level: " ++ difficulty ++ ")")
              (mcqOptions topic subject)
              ((mcqOptions topic subject).getD (chM j).val "")
              ("The correct answer is " ++ letterName (chM j) ++
                " due to core concept alignment.")
              topic) := rfl
    rw [List.getElem_of_eq hmap hi', List.getElem_map, List.getElem_range]
    rfl
  · rw [if_neg hi]
    have hge : (generateMcq topic subject difficulty nm chM).length ≤ i := by
      rw [hlm]; omega
    rw [hEl, List.getElem_append_right hge]
    have hmap : generateShort topic subject difficulty ns chS
        = (List.range ns).map (fun j =>
            QuizItem.short
              (shortStarters.getD (chS j).val "" ++ " " ++ topic ++ " in " ++
                subject ++ ". (Level: " ++ difficulty ++ ")")
              ("An ideal answer should mention the core definition, one example, and a "
                ++ pyLower difficulty ++ " nuance.")
              ((((pySplitWS topic).filter (fun kw => kw.length > 3)).map
                pyStrip).take 4)
              topic) := rfl
    have hlt : i - (generateMcq topic subject difficulty nm chM).length
        < (generateShort topic subject difficulty ns chS).length := by
      rw [hlm, hls]
      have := hlen ▸ h
      omega
    rw [List.getElem_of_eq hmap hlt, List.getElem_map, List.getElem_range]
    rfl

/-- C4 witness: with one mcq and one short item requested, position 0 holds
an mcq item and position 1 a short item. -/
theorem C4_generate_counts_and_order_witness :
    ((generate_quiz_items "t" "s" "d" 1 1 (fun _ => 0) (fun _ => 0)).get
        ⟨1, by decide⟩).itemType = if 1 < 1 then "mcq" else "short" :=
  (C4_generate_counts_and_order "t" "s" "d" 1 1 (fun _ => 0) (fun _ => 0)).2
    1 (by decide)

/-- C5: every mcq item built by the mcq generator has exactly 4 options, and
its stored answer is one of them (the one at the drawn letter's index). -/
theorem C5_mcq_options_invariant (topic subject difficulty : String) (n : Nat)
    (choice : Nat → Fin 4) (q ans expl tag : String) (opts : List String)
    (hmem : QuizItem.mcq q opts ans expl tag
        ∈ generateMcq topic subject difficulty n choice) :
    opts.length = 4 ∧ ans ∈ opts := by
  rcases List.mem_map.mp hmem with ⟨i, _, hi⟩
  simp only [QuizItem.mcq.injEq] at hi
  obtain ⟨hq, hopts, hans, hexpl, htag⟩ := hi
  rw [← hopts, ← hans]
  constructor
  · rfl
  · have hlt : (choice i).val < (mcqOptions topic subject).length :=
      (choice i).isLt
    rw [List.getD_eq_getElem _ _ hlt]
    exact List.getElem_mem hlt

/-- C5 witness: the invariant on the single item generated for a concrete
topic and subject. -/
theorem C5_mcq_options_invariant_witness :
    ("Option A related to t" ∈ mcqOptions "t" "s") :=
  (C5_mcq_options_invariant "t" "s" "d" 1 (fun _ => 0)
    ("s: On 't', which option is correct? (Level: d)")
    "Option A related to t"
    "The correct answer is A due to core concept alignment." "t"
    (mcqOptions "t" "s") (by decide)).2

/-- C8: the aggregate average percentage is `100 * sum(score) / sum(total)`
over the selected rows, is 0 when `sum(total) = 0`, and on rows with scores
[3, 5] and totals [5, 5] equals exactly 80. -/
theorem C8_average_percentage (rows : List (Nat × Nat)) :
    (((rows.map Prod.snd).sum ≠ 0 →
        averagePct rows
          = 100 * ((rows.map Prod.fst).sum : ℚ)
              / ((rows.map Prod.snd).sum : ℚ))
      ∧ ((rows.map Prod.snd).sum = 0 → averagePct rows = 0))
    ∧ averagePct [(3, 5), (5, 5)] = 80 := by
  refine ⟨⟨?_, ?_⟩, ?_⟩
  · intro h
    unfold averagePct
    rw [if_neg h]
    ring
  · intro h
    unfold averagePct
    rw [if_pos h]
  · unfold averagePct
    norm_num

/-- C8 witness: the ratio formula instantiated on the rows of the scenario. -/
theorem C8_average_percentage_witness :
    averagePct [(3, 5), (5, 5)]
      = 100 * ((([(3, 5), (5, 5)] : List (Nat × Nat)).map Prod.fst).sum : ℚ)
          / ((([(3, 5), (5, 5)] : List (Nat × Nat)).map Prod.snd).sum : ℚ) :=
  (C8_average_percentage [(3, 5), (5, 5)]).1.1 (by decide)

/-- C9 witness: determinism instantiated on a concrete run. -/
theorem C9_grading_deterministic_witness :
    (grade_quiz_submission [QuizItem.short "q" "ia" ["derivative"] "calculus"]
        [("q_0", "a derivative")]).score
      = (grade_quiz_submission [QuizItem.short "q" "ia" ["derivative"] "calculus"]
          [("q_0", "a derivative")]).score :=
  (C9_grading_deterministic _ _ _ _ rfl rfl).1

/-! ### Counting-dict lemmas for the weak-area aggregation -/

theorem assocCount_nil (t : String) : assocCount [] t = 0 := rfl

theorem assocCount_cons (k : String) (c : Nat) (rest : List (String × Nat))
    (t : String) :
    assocCount ((k, c) :: rest) t = if k = t then c else assocCount rest t := by
  by_cases h : k = t <;> simp [assocCount, List.find?_cons, h]

/-- `bumpCount` adds exactly one to the bumped key's count and leaves every
other count unchanged. -/
theorem assocCount_bumpCount (acc : List (String × Nat)) (t x : String) :
    assocCount (bumpCount acc t) x
      = assocCount acc x + (if x = t then 1 else 0) := by
  induction acc with
  | nil =>
    show assocCount [(t, 1)] x = assocCount [] x + (if x = t then 1 else 0)
    rw [assocCount_cons, assocCount_nil]
    by_cases h : x = t
    · rw [if_pos h.symm, if_pos h]
    · rw [if_neg (fun hh => h hh.symm), if_neg h]
  | cons p rest ih =>
    obtain ⟨k, c⟩ := p
    by_cases hkt : k = t
    · subst hkt
      have hb : bumpCount ((k, c) :: rest) k = (k, c + 1) :: rest := by
        simp [bumpCount]
      rw [hb, assocCount_cons, assocCount_cons]
      by_cases hkx : k = x
      · rw [if_pos hkx, if_pos hkx, if_pos hkx.symm]
      · rw [if_neg hkx, if_neg hkx, if_neg (fun hh => hkx hh.symm)]
        omega
    · have hb : bumpCount ((k, c) :: rest) t = (k, c) :: bumpCount rest t := by
        simp only [bumpCount]
        rw [if_neg hkt]
      rw [hb, assocCount_cons, assocCount_cons]
      by_cases hkx : k = x
      · rw [if_pos hkx, if_pos hkx,
          if_neg (fun hh : x = t => hkt (hkx.trans hh))]
        omega
      · rw [if_neg hkx, if_neg hkx, ih]

/-- `bumpCount` keeps the key list unchanged when the key is present and
appends it otherwise. -/
theorem keysOf_bumpCount (acc : List (String × Nat)) (t : String) :
    keysOf (bumpCount acc t)
      = if t ∈ keysOf acc then keysOf acc else keysOf acc ++ [t] := by
  induction acc with
  | nil =>
    simp [keysOf, bumpCount]
  | cons p rest ih =>
    obtain ⟨k, c⟩ := p
    by_cases hkt : k = t
    · subst hkt
      have hb : bumpCount ((k, c) :: rest) k = (k, c + 1) :: rest := by
        simp [bumpCount]
      rw [hb]
      show k :: keysOf rest
        = if k ∈ k :: keysOf rest then k :: keysOf rest else _
      rw [if_pos (List.mem_cons_self k _)]
    · have hb : bumpCount ((k, c) :: rest) t = (k, c) :: bumpCount rest t := by
        simp only [bumpCount]
        rw [if_neg hkt]
      rw [hb]
      show k :: keysOf (bumpCount rest t)
        = if t ∈ k :: keysOf rest then k :: keysOf rest
          else (k :: keysOf rest) ++ [t]
      rw [ih]
      by_cases ht : t ∈ keysOf rest
      · rw [if_pos ht, if_pos (List.mem_cons_of_mem k ht)]
      · rw [if_neg ht, if_neg (fun hh => by
          rcases List.mem_cons.mp hh with h1 | h2
          · exact hkt h1.symm
          · exact ht h2)]
        rfl

/-- Folding `bumpCount` over a token list adds each token's occurrence count
on top of the accumulator's counts. -/
theorem assocCount_foldl (l : List String) : ∀ (acc : List (String × Nat))
    (x : String),
    assocCount (l.foldl bumpCount acc) x = assocCount acc x + l.count x := by
  induction l with
  | nil => intro acc x; simp
  | cons a rest ih =>
    intro acc x
    rw [List.foldl_cons, ih, assocCount_bumpCount, List.count_cons]
    by_cases h : x = a
    · subst h
      simp only [if_pos rfl, beq_self_eq_true, if_true]
      omega
    · have h2 : ¬ (a == x) = true := fun hh => h (beq_iff_eq.mp hh).symm
      simp [h, h2]


/-- A string is a key of the fold's result iff it is a key of the
accumulator or a member of the token list. -/
theorem mem_keysOf_foldl (l : List String) : ∀ (acc : List (String × Nat))
    (t : String),
    t ∈ keysOf (l.foldl bumpCount acc) ↔ t ∈ keysOf acc ∨ t ∈ l := by
  induction l with
  | nil => intro acc t; simp
  | cons a rest ih =>
    intro acc t
    rw [List.foldl_cons, ih, keysOf_bumpCount]
    by_cases ha : a ∈ keysOf acc
    · rw [if_pos ha]
      constructor
      · rintro (h | h)
        · exact Or.inl h
        · exact Or.inr (List.mem_cons_of_mem a h)
      · rintro (h | h)
        · exact Or.inl h
        · rcases List.mem_cons.mp h with h1 | h2
          · exact Or.inl (h1 ▸ ha)
          · exact Or.inr h2
    · rw [if_neg ha]
      constructor
      · rintro (h | h)
        · rcases List.mem_append.mp h with h1 | h2
          · exact Or.inl h1
          · exact Or.inr (List.mem_cons.mpr (Or.inl (List.mem_singleton.mp h2)))
        · exact Or.inr (List.mem_cons_of_mem a h)
      · rintro (h | h)
        · exact Or.inl (List.mem_append_left _ h)
        · rcases List.mem_cons.mp h with h1 | h2
          · exact Or.inl (List.mem_append_right _ (h1 ▸ List.mem_singleton_self a))
          · exact Or.inr h2

/-- Folding `bumpCount` preserves distinctness of the dict keys. -/
theorem nodup_keysOf_foldl (l : List String) : ∀ (acc : List (String × Nat)),
    (keysOf acc).Nodup → (keysOf (l.foldl bumpCount acc)).Nodup := by
  induction l with
  | nil => intro acc h; exact h
  | cons a rest ih =>
    intro acc h
    rw [List.foldl_cons]
    apply ih
    rw [keysOf_bumpCount]
    by_cases ha : a ∈ keysOf acc
    · rw [if_pos ha]; exact h
    · rw [if_neg ha]
      rw [List.nodup_append]
      exact ⟨h, List.nodup_singleton a,
        fun x hx hxa => ha ((List.mem_singleton.mp hxa) ▸ hx)⟩

/-- In a dict with distinct keys, every stored pair carries exactly the
count that lookup returns for its key. -/
theorem snd_eq_assocCount (acc : List (String × Nat))
    (hnd : (keysOf acc).Nodup) :
    ∀ p ∈ acc, p.2 = assocCount acc p.1 := by
  induction acc with
  | nil => intro p hp; cases hp
  | cons q rest ih =>
    obtain ⟨k, c⟩ := q
    intro p hp
    have hnd' : (keysOf rest).Nodup := (List.nodup_cons.mp hnd).2
    have hknr : k ∉ keysOf rest := (List.nodup_cons.mp hnd).1
    rcases List.mem_cons.mp hp with h1 | h2
    · subst h1
      rw [assocCount_cons, if_pos rfl]
    · rw [assocCount_cons]
      have hp1 : p.1 ∈ keysOf rest := List.mem_map_of_mem Prod.fst h2
      rw [if_neg (fun hh : k = p.1 => hknr (hh ▸ hp1))]
      exact ih hnd' p h2

/-- Every key of the dict occurs in it, paired with its looked-up count. -/
theorem pair_mem_of_mem_keysOf (acc : List (String × Nat)) :
    ∀ t ∈ keysOf acc, (t, assocCount acc t) ∈ acc := by
  induction acc with
  | nil => intro t ht; cases ht
  | cons q rest ih =>
    obtain ⟨k, c⟩ := q
    intro t ht
    by_cases hkt : k = t
    · subst hkt
      rw [assocCount_cons, if_pos rfl]
      exact List.mem_cons_self _ _
    · rcases List.mem_cons.mp ht with h1 | h2
      · exact absurd h1.symm hkt
      · rw [assocCount_cons, if_neg hkt]
        exact List.mem_cons_of_mem _ (ih t h2)

/-- The nested fold of `weakCounts` is the flat fold over the flattened
token stream. -/
theorem weakCounts_eq_countsOf (rows : List String) :
    weakCounts rows = countsOf (flatWeak rows) := by
  show List.foldl (fun acc s => (splitWeakField s).foldl bumpCount acc) [] rows
    = ((rows.map splitWeakField).flatten).foldl bumpCount []
  generalize ([] : List (String × Nat)) = acc
  induction rows generalizing acc with
  | nil => rfl
  | cons r rest ih =>
    rw [List.foldl_cons, List.map_cons, List.flatten_cons, List.foldl_append]
    exact ih _

/-- The dict keys of `countsOf l` are ordered by first occurrence in `l`:
any earlier key first occurs in `l` strictly before any later key. -/
theorem pairwise_keysOf_countsOf (l : List String) :
    List.Pairwise (fun a b => List.indexOf a l < List.indexOf b l)
      (keysOf (countsOf l)) := by
  induction l using List.reverseRecOn with
  | nil => simp [countsOf, keysOf]
  | append_singleton l t ih =>
    have hcounts : countsOf (l ++ [t]) = bumpCount (countsOf l) t := by
      show (l ++ [t]).foldl bumpCount [] = _
      rw [List.foldl_append]
      rfl
    have hallmem : ∀ x ∈ keysOf (countsOf l), x ∈ l := by
      intro x hx
      rcases (mem_keysOf_foldl l [] x).mp hx with h | h
      · cases h
      · exact h
    have hstable : ∀ x ∈ keysOf (countsOf l),
        List.indexOf x (l ++ [t]) = List.indexOf x l := fun x hx =>
      List.indexOf_append_of_mem (hallmem x hx)
    have hih : List.Pairwise
        (fun a b => List.indexOf a (l ++ [t]) < List.indexOf b (l ++ [t]))
        (keysOf (countsOf l)) := by
      apply ih.imp_of_mem
      intro a b ha hb hab
      rw [hstable a ha, hstable b hb]
      exact hab
    rw [hcounts, keysOf_bumpCount]
    by_cases ht : t ∈ keysOf (countsOf l)
    · rw [if_pos ht]
      exact hih
    · rw [if_neg ht]
      rw [List.pairwise_append]
      refine ⟨hih, List.pairwise_singleton _ _, ?_⟩
      intro a ha b hb
      rw [List.mem_singleton.mp hb]
      have htl : t ∉ l := fun hh =>
        ht ((mem_keysOf_foldl l [] t).mpr (Or.inr hh))
      rw [hstable a ha, List.indexOf_append_of_not_mem htl]
      calc List.indexOf a l < l.length :=
            List.indexOf_lt_length.mpr (hallmem a ha)
        _ ≤ l.length + List.indexOf t [t] := Nat.le_add_right _ _

/-- Inserting into the descending list is a permutation of consing. -/
theorem insertDesc_perm (p : String × Nat) (m : List (String × Nat)) :
    (insertDesc p m).Perm (p :: m) := by
  induction m with
  | nil => exact List.Perm.refl _
  | cons q rest ih =>
    show (if q.2 ≤ p.2 then p :: q :: rest else q :: insertDesc p rest).Perm _
    by_cases h : q.2 ≤ p.2
    · rw [if_pos h]
    · rw [if_neg h]
      exact (ih.cons q).trans (List.Perm.swap p q rest)

/-- The stable sort is a permutation of its input. -/
theorem sortByCountDesc_perm (l : List (String × Nat)) :
    (sortByCountDesc l).Perm l := by
  induction l with
  | nil => exact List.Perm.refl _
  | cons p rest ih =>
    exact (insertDesc_perm p (sortByCountDesc rest)).trans (ih.cons p)

/-- Sortedness with stability: inserting `p` into a list that is pairwise
ordered by "strictly larger count, or tied with `S`" keeps that order,
provided `p` is `S`-before every tied element of the list. -/
theorem pairwise_insertDesc {S : (String × Nat) → (String × Nat) → Prop}
    (p : String × Nat) (m : List (String × Nat))
    (hm : List.Pairwise (fun a b => b.2 < a.2 ∨ (b.2 = a.2 ∧ S a b)) m)
    (hq : ∀ b ∈ m, p.2 = b.2 → S p b) :
    List.Pairwise (fun a b => b.2 < a.2 ∨ (b.2 = a.2 ∧ S a b))
      (insertDesc p m) := by
  induction m with
  | nil => exact List.pairwise_singleton _ p
  | cons q rest ih =>
    rw [List.pairwise_cons] at hm
    obtain ⟨hqrest, hrest⟩ := hm
    show List.Pairwise _ (if q.2 ≤ p.2 then p :: q :: rest
      else q :: insertDesc p rest)
    by_cases h : q.2 ≤ p.2
    · rw [if_pos h]
      rw [List.pairwise_cons]
      constructor
      · intro b hb
        rcases List.mem_cons.mp hb with h1 | h2
        · subst h1
          rcases Nat.lt_or_ge b.2 p.2 with hlt | hge
          · exact Or.inl hlt
          · have heq : b.2 = p.2 := Nat.le_antisymm h hge
            exact Or.inr ⟨heq, hq b (List.mem_cons_self _ _) heq.symm⟩
        · rcases hqrest b h2 with hlt | ⟨heq, hS⟩
          · exact Or.inl (Nat.lt_of_lt_of_le hlt h)
          · rcases Nat.lt_or_ge b.2 p.2 with hlt2 | hge2
            · exact Or.inl hlt2
            · have heq2 : b.2 = p.2 := Nat.le_antisymm (heq ▸ h) hge2
              exact Or.inr ⟨heq2,
                hq b (List.mem_cons_of_mem q h2) heq2.symm⟩
      · rw [List.pairwise_cons]
        exact ⟨hqrest, hrest⟩
    · rw [if_neg h]
      rw [List.pairwise_cons]
      constructor
      · intro b hb
        rcases List.mem_cons.mp (((insertDesc_perm p rest).mem_iff).mp hb)
          with h1 | h2
        · subst h1
          exact Or.inl (Nat.lt_of_not_le h)
        · exact hqrest b h2
      · exact ih hrest (fun b hb => hq b (List.mem_cons_of_mem q hb))

/-- The stable sort of a list whose tied elements are already `S`-ordered is
pairwise ordered by "strictly larger count, or tied with `S`". -/
theorem pairwise_sortByCountDesc {S : (String × Nat) → (String × Nat) → Prop}
    (l : List (String × Nat))
    (h : List.Pairwise (fun a b => a.2 = b.2 → S a b) l) :
    List.Pairwise (fun a b => b.2 < a.2 ∨ (b.2 = a.2 ∧ S a b))
      (sortByCountDesc l) := by
  induction l with
  | nil => exact List.Pairwise.nil
  | cons p rest ih =>
    rw [List.pairwise_cons] at h
    obtain ⟨hp, hrest⟩ := h
    apply pairwise_insertDesc p (sortByCountDesc rest) (ih hrest)
    intro b hb heq
    exact hp b (((sortByCountDesc_perm rest).mem_iff).mp hb) heq

/-- Bundle of structural facts about the weak-area counting dict: distinct
keys, exact occurrence counts, key membership, and first-occurrence order. -/
theorem weakCounts_facts (rows : List String) :
    (keysOf (weakCounts rows)).Nodup
    ∧ (∀ p ∈ weakCounts rows, p.2 = (flatWeak rows).count p.1)
    ∧ (∀ t, t ∈ keysOf (weakCounts rows) ↔ t ∈ flatWeak rows)
    ∧ List.Pairwise
        (fun p q => List.indexOf p.1 (flatWeak rows)
          < List.indexOf q.1 (flatWeak rows)) (weakCounts rows) := by
  rw [weakCounts_eq_countsOf]
  have hnd : (keysOf (countsOf (flatWeak rows))).Nodup :=
    nodup_keysOf_foldl (flatWeak rows) [] List.nodup_nil
  have hassoc : ∀ x, assocCount (countsOf (flatWeak rows)) x
      = (flatWeak rows).count x := by
    intro x
    rw [show countsOf (flatWeak rows) = (flatWeak rows).foldl bumpCount []
      from rfl]
    rw [assocCount_foldl, assocCount_nil, Nat.zero_add]
  refine ⟨hnd, ?_, ?_, ?_⟩
  · intro p hp
    rw [snd_eq_assocCount _ hnd p hp, hassoc]
  · intro t
    rw [show countsOf (flatWeak rows) = (flatWeak rows).foldl bumpCount []
      from rfl]
    rw [mem_keysOf_foldl]
    constructor
    · rintro (h | h)
      · cases h
      · exact h
    · exact Or.inr
  · have := pairwise_keysOf_countsOf (flatWeak rows)
    rw [show keysOf (countsOf (flatWeak rows))
      = (countsOf (flatWeak rows)).map Prod.fst from rfl] at this
    exact (@List.pairwise_map (String × Nat) String Prod.fst
      (fun a b => List.indexOf a (flatWeak rows)
        < List.indexOf b (flatWeak rows))
      (countsOf (flatWeak rows))).mp this

/-- C7 (amended): the weak-area aggregation of the report export splits each
selected row's comma-joined field into trimmed topic strings, flattens them
across rows, counts occurrences of each string case-sensitively, and returns
the top 6 entries (not 5): the reported counts are the exact occurrence
counts, the entries are in descending count order with ties in
first-encountered order, the result has `min 6 · ` entries, and every
distinct string left unreported has a count no larger than any reported
one. -/
theorem C7_weak_area_aggregation (rows : List String) :
    (∀ p ∈ topWeakAreas rows, p.2 = (flatWeak rows).count p.1)
    ∧ (∀ i j (hi : i < (topWeakAreas rows).length)
        (hj : j < (topWeakAreas rows).length), i < j →
        ((topWeakAreas rows).get ⟨j, hj⟩).2
          ≤ ((topWeakAreas rows).get ⟨i, hi⟩).2)
    ∧ (topWeakAreas rows).length = min 6 (weakCounts rows).length
    ∧ (∀ t ∈ flatWeak rows, (∀ p ∈ topWeakAreas rows, p.1 ≠ t) →
        ∀ p ∈ topWeakAreas rows, (flatWeak rows).count t ≤ p.2)
    ∧ (∀ i j (hi : i < (topWeakAreas rows).length)
        (hj : j < (topWeakAreas rows).length), i < j →
        ((topWeakAreas rows).get ⟨i, hi⟩).2
          = ((topWeakAreas rows).get ⟨j, hj⟩).2 →
        List.indexOf ((topWeakAreas rows).get ⟨i, hi⟩).1 (flatWeak rows)
          < List.indexOf ((topWeakAreas rows).get ⟨j, hj⟩).1 (flatWeak rows)) := by
  obtain ⟨hnd, hcount, hkeys, horder⟩ := weakCounts_facts rows
  have htw : topWeakAreas rows
      = (sortByCountDesc (weakCounts rows)).take 6 := rfl
  have hperm := sortByCountDesc_perm (weakCounts rows)
  have hpair : List.Pairwise
      (fun a b => b.2 < a.2 ∨ (b.2 = a.2
        ∧ List.indexOf a.1 (flatWeak rows) < List.indexOf b.1 (flatWeak rows)))
      (sortByCountDesc (weakCounts rows)) := by
    apply pairwise_sortByCountDesc
    apply horder.imp
    intro a b h
    exact fun _ => h
  have hmem_wc : ∀ p ∈ topWeakAreas rows, p ∈ weakCounts rows := by
    intro p hp
    rw [htw] at hp
    exact hperm.mem_iff.mp
      (List.Sublist.mem hp (List.take_sublist 6 _))
  have hpair_tw : List.Pairwise
      (fun a b => b.2 < a.2 ∨ (b.2 = a.2
        ∧ List.indexOf a.1 (flatWeak rows) < List.indexOf b.1 (flatWeak rows)))
      (topWeakAreas rows) := by
    rw [htw]
    exact List.Pairwise.sublist (List.take_sublist 6 _) hpair
  refine ⟨?_, ?_, ?_, ?_, ?_⟩
  · intro p hp
    exact hcount p (hmem_wc p hp)
  · intro i j hi hj hij
    rcases List.pairwise_iff_get.mp hpair_tw ⟨i, hi⟩ ⟨j, hj⟩ hij with h | h
    · exact Nat.le_of_lt h
    · exact Nat.le_of_eq h.1
  · rw [htw, List.length_take, hperm.length_eq]
  · intro t ht hnot p hp
    have htk : t ∈ keysOf (weakCounts rows) := (hkeys t).mpr ht
    have hpt : (t, assocCount (weakCounts rows) t) ∈ weakCounts rows :=
      pair_mem_of_mem_keysOf _ t htk
    have hptc : ((t, assocCount (weakCounts rows) t) : String × Nat).2
        = (flatWeak rows).count t := hcount _ hpt
    have hpt_sorted : (t, assocCount (weakCounts rows) t)
        ∈ sortByCountDesc (weakCounts rows) := hperm.mem_iff.mpr hpt
    rw [← List.take_append_drop 6 (sortByCountDesc (weakCounts rows))]
      at hpt_sorted
    rcases List.mem_append.mp hpt_sorted with hin | hout
    · exact absurd rfl (hnot _ (htw ▸ hin))
    · have hcross := (List.pairwise_append.mp
        ((List.take_append_drop 6
          (sortByCountDesc (weakCounts rows))).symm ▸ hpair)).2.2
      have hR := hcross p (htw ▸ hp) _ hout
      rcases hR with h | h
      · rw [← hptc]
        exact Nat.le_of_lt h
      · rw [← hptc]
        exact Nat.le_of_eq h.1
  · intro i j hi hj hij heq
    rcases List.pairwise_iff_get.mp hpair_tw ⟨i, hi⟩ ⟨j, hj⟩ hij with h | h
    · omega
    · exact h.2

/-- C7 witness: on a concrete row set, the first reported weak area has a
count at least as large as the second. -/
theorem C7_weak_area_aggregation_witness :
    ((topWeakAreas ["algebra, algebra, geometry"]).get ⟨1, by decide⟩).2
      ≤ ((topWeakAreas ["algebra, algebra, geometry"]).get ⟨0, by decide⟩).2 :=
  (C7_weak_area_aggregation ["algebra, algebra, geometry"]).2.1 0 1
    (by decide) (by decide) (by decide)

/-- C7 counterexample: on a row with six distinct weak areas the report
export's aggregation returns six entries, not the five stated by the
claim (`utils.py` slices `[:6]`). -/
theorem C7_counterexample_top6 :
    (topWeakAreas ["a, b, c, d, e, f"]).length = 6
    ∧ (topWeakAreas ["a, b, c, d, e, f"]).length ≠ 5 :=
  ⟨by decide, by decide⟩

end EduTutor
